import Mathlib

/-!
Verification of the schema policy engine of a whisper-file retention tool.

The Go sources are shallowly embedded here:
* strings are embedded as `List Char` (`GoStr`); all relevant data is ASCII,
  so byte indexing in the source coincides with character indexing here;
* Go `int` is embedded as `Int`; where 64-bit overflow is observable (the
  sign of parsed durations), dedicated variants apply an explicit
  two's-complement wrap `% 2^64` and the `strconv.Atoi` range check;
* fallible functions returning `(T, error)` whose error content is not
  observed by callers are embedded as `Option`; the policy-file parser,
  whose error content names the failing section, returns `Except ParseErr`;
* the external regular-expression engine is embedded as an abstract
  compile function `GoStr → Option (GoStr → Bool)` (`none` = compilation
  failure; the returned function is `MatchString`).
-/

abbrev GoStr := List Char

/-! ### Character and whitespace helpers -/

/-- Embedding of the whitespace test used by Go `strings.TrimSpace`
(restricted to the ASCII space characters, the only ones that occur in
the data handled here). -/
def isSpaceGo (c : Char) : Bool :=
  c == ' ' || c == '\t' || c == '\n' || c == '\x0b' || c == '\x0c' || c == '\r'

/-- Embedding of Go `strings.TrimSpace`. -/
def trimSpace (l : GoStr) : GoStr :=
  ((l.dropWhile isSpaceGo).reverse.dropWhile isSpaceGo).reverse

theorem dropWhile_of_all_false {p : Char → Bool} {l : GoStr}
    (h : ∀ c ∈ l, p c = false) : l.dropWhile p = l := by
  cases l with
  | nil => rfl
  | cons a l =>
    rw [List.dropWhile_cons, h a (List.mem_cons_self a l)]
    simp

theorem trimSpace_eq_self {l : GoStr} (h : ∀ c ∈ l, isSpaceGo c = false) :
    trimSpace l = l := by
  unfold trimSpace
  rw [dropWhile_of_all_false h, dropWhile_of_all_false, List.reverse_reverse]
  intro c hc
  exact h c (List.mem_reverse.mp hc)

theorem trimSpace_nil : trimSpace [] = [] := rfl

/-! ### Decimal digits: printing (`fmt %d`) and parsing (`strconv.Atoi`) -/

def digitChar : Nat → Char
  | 0 => '0' | 1 => '1' | 2 => '2' | 3 => '3' | 4 => '4'
  | 5 => '5' | 6 => '6' | 7 => '7' | 8 => '8' | 9 => '9'
  | _ => '*'

def isDigitCh (c : Char) : Bool :=
  decide (48 ≤ c.toNat ∧ c.toNat ≤ 57)

def digVal (c : Char) : Nat := c.toNat - 48

/-- Fuel-structural digit printer (most significant digit first), so that the
kernel can evaluate it; `toDigits` supplies sufficient fuel. -/
def toDigitsGo : Nat → Nat → List Char → List Char
  | 0, _, acc => acc
  | fuel + 1, n, acc =>
    if n < 10 then digitChar n :: acc
    else toDigitsGo fuel (n / 10) (digitChar (n % 10) :: acc)

def toDigits (n : Nat) : List Char := toDigitsGo (n + 1) n []

theorem toDigitsGo_acc : ∀ fuel n acc,
    toDigitsGo fuel n acc = toDigitsGo fuel n [] ++ acc := by
  intro fuel
  induction fuel with
  | zero => intro n acc; rfl
  | succ fuel ih =>
    intro n acc
    by_cases h : n < 10
    · simp [toDigitsGo, h]
    · simp only [toDigitsGo, if_neg h]
      rw [ih (n / 10) (digitChar (n % 10) :: acc), ih (n / 10) [digitChar (n % 10)]]
      simp

theorem toDigitsGo_fuel : ∀ fuel fuel' n, n < fuel → n < fuel' →
    toDigitsGo fuel n [] = toDigitsGo fuel' n [] := by
  intro fuel
  induction fuel with
  | zero => intro fuel' n h; omega
  | succ fuel ih =>
    intro fuel' n h h'
    cases fuel' with
    | zero => omega
    | succ fuel' =>
      by_cases h10 : n < 10
      · simp [toDigitsGo, h10]
      · simp only [toDigitsGo, if_neg h10]
        rw [toDigitsGo_acc fuel, toDigitsGo_acc fuel']
        have hdiv : n / 10 < n := Nat.div_lt_self (by omega) (by omega)
        rw [ih fuel' (n / 10) (by omega) (by omega)]

theorem toDigits_eq (n : Nat) :
    toDigits n = if n < 10 then [digitChar n]
                 else toDigits (n / 10) ++ [digitChar (n % 10)] := by
  by_cases h : n < 10
  · simp [toDigits, toDigitsGo, h]
  · rw [if_neg h]
    have h1 : toDigits n = toDigitsGo n (n / 10) [digitChar (n % 10)] := by
      simp [toDigits, toDigitsGo, h]
    rw [h1, toDigitsGo_acc]
    have hdiv : n / 10 < n := Nat.div_lt_self (by omega) (by omega)
    rw [toDigitsGo_fuel n (n / 10 + 1) (n / 10) (by omega) (by omega)]
    rfl

theorem digitChar_isDigit {d : Nat} (h : d < 10) : isDigitCh (digitChar d) = true := by
  interval_cases d <;> decide

theorem digitChar_val {d : Nat} (h : d < 10) : digVal (digitChar d) = d := by
  interval_cases d <;> decide

theorem toDigits_ne_nil (n : Nat) : toDigits n ≠ [] := by
  induction n using Nat.strong_induction_on with
  | _ n ih =>
    rw [toDigits_eq]
    by_cases h : n < 10
    · simp [h]
    · simp [h]

theorem toDigits_all_digits (n : Nat) :
    ∀ c ∈ toDigits n, isDigitCh c = true := by
  induction n using Nat.strong_induction_on with
  | _ n ih =>
    rw [toDigits_eq]
    by_cases h : n < 10
    · simp only [if_pos h, List.mem_singleton]
      intro c hc; subst hc; exact digitChar_isDigit h
    · simp only [if_neg h, List.mem_append, List.mem_singleton]
      rintro c (hc | hc)
      · exact ih (n / 10) (Nat.div_lt_self (by omega) (by omega)) c hc
      · subst hc; exact digitChar_isDigit (Nat.mod_lt n (by omega))

def digitsVal (cs : List Char) : Nat :=
  cs.foldl (fun a c => a * 10 + digVal c) 0

theorem digitsVal_concat (xs : List Char) (c : Char) :
    digitsVal (xs ++ [c]) = digitsVal xs * 10 + digVal c := by
  unfold digitsVal
  rw [List.foldl_append]
  rfl

theorem digitsVal_toDigits (n : Nat) : digitsVal (toDigits n) = n := by
  induction n using Nat.strong_induction_on with
  | _ n ih =>
    rw [toDigits_eq]
    by_cases h : n < 10
    · simp only [if_pos h]
      show 0 * 10 + digVal (digitChar n) = n
      rw [digitChar_val h]; omega
    · simp only [if_neg h]
      rw [digitsVal_concat, ih (n / 10) (Nat.div_lt_self (by omega) (by omega)),
        digitChar_val (Nat.mod_lt n (by omega))]
      omega

/-- Embedding of the digit-string acceptance and value of `strconv.Atoi`
(after the optional sign). -/
def parseDigits (cs : List Char) : Option Nat :=
  if cs = [] then none
  else if cs.all isDigitCh then some (digitsVal cs) else none

/-- Embedding of Go `strconv.Atoi` over exact integers, without the `int64`
range check; faithful wherever the parsed value is in range.  The
range-checked variant is `atoi64` below, used where the difference is
observable. -/
def atoi : GoStr → Option Int
  | [] => none
  | c :: rest =>
    if c = '-' then
      match parseDigits rest with
      | none => none
      | some v => some (-(v : Int))
    else if c = '+' then
      match parseDigits rest with
      | none => none
      | some v => some ((v : Int))
    else
      match parseDigits (c :: rest) with
      | none => none
      | some v => some ((v : Int))

theorem parseDigits_toDigits (n : Nat) : parseDigits (toDigits n) = some n := by
  unfold parseDigits
  rw [if_neg (toDigits_ne_nil n)]
  rw [if_pos (List.all_eq_true.mpr (toDigits_all_digits n)), digitsVal_toDigits]

theorem atoi_toDigits (n : Nat) : atoi (toDigits n) = some (n : Int) := by
  cases h : toDigits n with
  | nil => exact absurd h (toDigits_ne_nil n)
  | cons c rest =>
    have hc : isDigitCh c = true := by
      apply toDigits_all_digits n
      rw [h]; exact List.mem_cons_self c rest
    have hc1 : ¬ c = '-' := by
      intro hcc; subst hcc; exact absurd hc (by decide)
    have hc2 : ¬ c = '+' := by
      intro hcc; subst hcc; exact absurd hc (by decide)
    simp only [atoi]
    rw [if_neg hc1, if_neg hc2, ← h, parseDigits_toDigits]

/-- Embedding of `fmt.Sprintf "%d"` on a Go `int`. -/
def sprintfD (n : Int) : GoStr :=
  if n < 0 then '-' :: toDigits (-n).toNat else toDigits n.toNat

theorem atoi_sprintfD (n : Int) : atoi (sprintfD n) = some n := by
  unfold sprintfD
  by_cases h : n < 0
  · rw [if_pos h]
    show atoi ('-' :: toDigits (-n).toNat) = some n
    simp only [atoi, if_pos trivial, parseDigits_toDigits]
    congr 1
    rw [Int.toNat_of_nonneg (by omega : (0 : Int) ≤ -n)]
    omega
  · rw [if_neg h, atoi_toDigits]
    congr 1
    exact Int.toNat_of_nonneg (by omega)

theorem sprintfD_chars {n : Int} : ∀ c ∈ sprintfD n, isDigitCh c = true ∨ c = '-' := by
  unfold sprintfD
  by_cases h : n < 0
  · rw [if_pos h]
    intro c hc
    rcases List.mem_cons.mp hc with hc | hc
    · right; exact hc
    · left; exact toDigits_all_digits _ c hc
  · rw [if_neg h]
    intro c hc
    left; exact toDigits_all_digits _ c hc

/-! ### DurationCodec: `fromHuman` (lib/format.go) and `ToHuman` (lib/format.go) -/

/-- Embedding of `fromHuman` (lib/format.go): parses strings like `10s`, `5m`,
`2h`, `7d`, `1y` into seconds.  The Go function returns `(int, error)`; callers
only use the value when the error is nil, so the observable behaviour is an
`Option Int`.  This version uses exact integer arithmetic, faithful wherever
the `Atoi` range check cannot fire and the unit multiplication cannot
overflow `int64` (as on the round-trip paths); `fromHuman64` below embeds
the wrap-around behaviour where it is observable. -/
def fromHuman (s : GoStr) : Option Int :=
  let t := trimSpace s
  if t = [] then none
  else
    match t.getLast? with
    | none => none
    | some u =>
      match atoi t.dropLast with
      | none => none
      | some val =>
        if u = 's' ∨ u = 'S' then some val
        else if u = 'm' ∨ u = 'M' then some (val * 60)
        else if u = 'h' ∨ u = 'H' then some (val * 3600)
        else if u = 'd' ∨ u = 'D' then some (val * 86400)
        else if u = 'y' ∨ u = 'Y' then some (val * 31536000)
        else none

/-- Embedding of `ToHuman` (lib/format.go): converts seconds into a
single-unit representation, trying year, day, hour, minute divisors in that
order and falling back to `<seconds>s`.  Go's truncated `%` and `/` agree with
Lean's `Int.emod`/`Int.ediv` on the two uses made here: the zero test of `%`
(both are zero exactly when the divisor divides), and `/` on an exact multiple
(both give the exact quotient). -/
def ToHuman (seconds : Int) : GoStr :=
  if seconds = 0 then ['0', 's']
  else if seconds % 31536000 = 0 then sprintfD (seconds / 31536000) ++ ['y']
  else if seconds % 86400 = 0 then sprintfD (seconds / 86400) ++ ['d']
  else if seconds % 3600 = 0 then sprintfD (seconds / 3600) ++ ['h']
  else if seconds % 60 = 0 then sprintfD (seconds / 60) ++ ['m']
  else sprintfD seconds ++ ['s']

theorem isSpaceGo_false_of_digit {c : Char} (h : isDigitCh c = true) :
    isSpaceGo c = false := by
  by_contra hs
  rw [Bool.not_eq_false] at hs
  unfold isSpaceGo at hs
  simp only [Bool.or_eq_true, beq_iff_eq] at hs
  rcases hs with ((((hs | hs) | hs) | hs) | hs) | hs <;>
    (subst hs; exact absurd h (by decide))

theorem sprintfD_no_space {n : Int} : ∀ c ∈ sprintfD n, isSpaceGo c = false := by
  intro c hc
  rcases sprintfD_chars c hc with h | h
  · exact isSpaceGo_false_of_digit h
  · subst h; decide

theorem fromHuman_concat (q : Int) (uc : Char) (hsp : isSpaceGo uc = false) :
    fromHuman (sprintfD q ++ [uc]) =
      (if uc = 's' ∨ uc = 'S' then some q
       else if uc = 'm' ∨ uc = 'M' then some (q * 60)
       else if uc = 'h' ∨ uc = 'H' then some (q * 3600)
       else if uc = 'd' ∨ uc = 'D' then some (q * 86400)
       else if uc = 'y' ∨ uc = 'Y' then some (q * 31536000)
       else none) := by
  have htrim : trimSpace (sprintfD q ++ [uc]) = sprintfD q ++ [uc] := by
    apply trimSpace_eq_self
    intro c hc
    rcases List.mem_append.mp hc with hc | hc
    · exact sprintfD_no_space c hc
    · rw [List.mem_singleton] at hc; subst hc; exact hsp
  have hne : sprintfD q ++ [uc] ≠ [] := by simp
  unfold fromHuman
  simp only [htrim, if_neg hne, List.getLast?_concat, List.dropLast_concat,
    atoi_sprintfD]

theorem fromHuman_toHuman (v : Int) : fromHuman (ToHuman v) = some v := by
  by_cases h0 : v = 0
  · subst h0; decide
  · unfold ToHuman
    rw [if_neg h0]
    by_cases h1 : v % 31536000 = 0
    · rw [if_pos h1, fromHuman_concat _ 'y' (by decide)]
      rw [if_neg (by decide : ¬('y' = 's' ∨ 'y' = 'S')),
        if_neg (by decide : ¬('y' = 'm' ∨ 'y' = 'M')),
        if_neg (by decide : ¬('y' = 'h' ∨ 'y' = 'H')),
        if_neg (by decide : ¬('y' = 'd' ∨ 'y' = 'D')),
        if_pos (by decide : ('y' = 'y' ∨ 'y' = 'Y'))]
      rw [Int.ediv_mul_cancel (Int.dvd_of_emod_eq_zero h1)]
    · rw [if_neg h1]
      by_cases h2 : v % 86400 = 0
      · rw [if_pos h2, fromHuman_concat _ 'd' (by decide)]
        rw [if_neg (by decide : ¬('d' = 's' ∨ 'd' = 'S')),
          if_neg (by decide : ¬('d' = 'm' ∨ 'd' = 'M')),
          if_neg (by decide : ¬('d' = 'h' ∨ 'd' = 'H')),
          if_pos (by decide : ('d' = 'd' ∨ 'd' = 'D'))]
        rw [Int.ediv_mul_cancel (Int.dvd_of_emod_eq_zero h2)]
      · rw [if_neg h2]
        by_cases h3 : v % 3600 = 0
        · rw [if_pos h3, fromHuman_concat _ 'h' (by decide)]
          rw [if_neg (by decide : ¬('h' = 's' ∨ 'h' = 'S')),
            if_neg (by decide : ¬('h' = 'm' ∨ 'h' = 'M')),
            if_pos (by decide : ('h' = 'h' ∨ 'h' = 'H'))]
          rw [Int.ediv_mul_cancel (Int.dvd_of_emod_eq_zero h3)]
        · rw [if_neg h3]
          by_cases h4 : v % 60 = 0
          · rw [if_pos h4, fromHuman_concat _ 'm' (by decide)]
            rw [if_neg (by decide : ¬('m' = 's' ∨ 'm' = 'S')),
              if_pos (by decide : ('m' = 'm' ∨ 'm' = 'M'))]
            rw [Int.ediv_mul_cancel (Int.dvd_of_emod_eq_zero h4)]
          · rw [if_neg h4, fromHuman_concat _ 's' (by decide)]
            rw [if_pos (by decide : ('s' = 's' ∨ 's' = 'S'))]

/-! ### RetentionSpec and the retention-list codec -/

/-- Embedding of `ArchiveSpec` (lib/types.go / lib/format.go). -/
structure ArchiveSpec where
  SecondsPerPoint : Int
  RetentionSecs : Int
deriving DecidableEq

/-- Embedding of the method `(spec ArchiveSpec) toHuman` (lib/format.go):
`ToHuman(resolution) + ":" + ToHuman(retention)`. -/
def toHumanPair (spec : ArchiveSpec) : GoStr :=
  ToHuman spec.SecondsPerPoint ++ ':' :: ToHuman spec.RetentionSecs

/-- Embedding of `FormatRetentionList` at lib/format.go lines 34-40: the Go
code builds `parts := make([]string, len(specs))` — a slice of `len(specs)`
EMPTY strings — and then appends one formatted pair per spec, so the joined
result starts with `len(specs)` empty parts.  The slice denotes
`replicate (length specs) [] ++ map toHumanPair specs`; `strings.Join parts ","`
denotes `List.intercalate [',']`. -/
def FormatRetentionList (specs : List ArchiveSpec) : GoStr :=
  List.intercalate [','] (List.replicate specs.length [] ++ specs.map toHumanPair)

/-- Embedding of the second `FormatRetentionList` variant in lib/format.go
(lines 113-119), which correctly starts from an empty slice
(`make([]string, 0, len(specs))`) and appends. -/
def FormatRetentionList2 (specs : List ArchiveSpec) : GoStr :=
  List.intercalate [','] (specs.map toHumanPair)

/-- Embedding of `formatRetentionList` (cmd/schema.go lines 151-157), whose
body is identical to the lib variant at lib/format.go lines 34-40 (including
the `make([]string, len(specs))` slip). -/
def formatRetentionList (specs : List ArchiveSpec) : GoStr :=
  List.intercalate [','] (List.replicate specs.length [] ++ specs.map toHumanPair)

/-- Embedding of `parseRetentionSpec` (lib/schema.go lines 180-198): splits a
pair like `10s:6h` on `:`, requiring exactly two parts, and decodes each side
with `fromHuman`. -/
def parseRetentionSpec (pair : GoStr) : Option ArchiveSpec :=
  match pair.splitOn ':' with
  | [a, b] =>
    match fromHuman (trimSpace a) with
    | none => none
    | some resS =>
      match fromHuman (trimSpace b) with
      | none => none
      | some retS => some ⟨resS, retS⟩
  | _ => none

/-- The comma-separated token loop of `parseRetentionList`
(lib/schema.go lines 159-177): trims each token, skips empty tokens, fails on
the first bad pair, preserves order. -/
def parseListLoop : List GoStr → Option (List ArchiveSpec)
  | [] => some []
  | p :: ps =>
    let q := trimSpace p
    if q = [] then parseListLoop ps
    else
      match parseRetentionSpec q with
      | none => none
      | some spec =>
        match parseListLoop ps with
        | none => none
        | some out => some (spec :: out)

/-- Embedding of `parseRetentionList` (lib/schema.go lines 159-177): splits on
commas, runs the token loop, and fails when zero specs result. -/
def parseRetentionList (s : GoStr) : Option (List ArchiveSpec) :=
  match parseListLoop (s.splitOn ',') with
  | none => none
  | some out => if out = [] then none else some out

/-! ### Character-set facts about `ToHuman` output, used for round-trips -/

theorem mem_toHuman {v : Int} : ∀ c ∈ ToHuman v,
    isDigitCh c = true ∨ c = '-' ∨ c = 'y' ∨ c = 'd' ∨ c = 'h' ∨ c = 'm' ∨ c = 's' := by
  unfold ToHuman
  intro c hc
  split at hc
  · rcases List.mem_pair.mp hc with h | h
    · left; subst h; decide
    · right; subst h; simp
  · repeat' split at hc
    all_goals {
      rcases List.mem_append.mp hc with h | h
      · rcases sprintfD_chars c h with h' | h'
        · left; exact h'
        · right; left; exact h'
      · rw [List.mem_singleton] at h
        subst h
        simp
    }

theorem toHuman_allowed_chars {v : Int} :
    ∀ c ∈ ToHuman v, c ≠ ',' ∧ c ≠ ':' ∧ isSpaceGo c = false := by
  intro c hc
  rcases mem_toHuman c hc with h | h | h | h | h | h | h
  · refine ⟨?_, ?_, isSpaceGo_false_of_digit h⟩
    · intro hcc; subst hcc; exact absurd h (by decide)
    · intro hcc; subst hcc; exact absurd h (by decide)
  all_goals (subst h; exact ⟨by decide, by decide, by decide⟩)

theorem toHuman_ne_nil {v : Int} : ToHuman v ≠ [] := by
  unfold ToHuman
  split
  · simp
  · repeat' split
    all_goals simp

theorem toHumanPair_no_comma {spec : ArchiveSpec} : ',' ∉ toHumanPair spec := by
  intro h
  unfold toHumanPair at h
  rcases List.mem_append.mp h with h | h
  · exact absurd rfl (toHuman_allowed_chars ',' h).1
  · rcases List.mem_cons.mp h with h | h
    · exact absurd h.symm (by decide)
    · exact absurd rfl (toHuman_allowed_chars ',' h).1

theorem toHumanPair_ne_nil {spec : ArchiveSpec} : toHumanPair spec ≠ [] := by
  unfold toHumanPair
  simp

theorem trimSpace_toHumanPair {spec : ArchiveSpec} :
    trimSpace (toHumanPair spec) = toHumanPair spec := by
  apply trimSpace_eq_self
  intro c hc
  unfold toHumanPair at hc
  rcases List.mem_append.mp hc with h | h
  · exact (toHuman_allowed_chars c h).2.2
  · rcases List.mem_cons.mp h with h | h
    · subst h; decide
    · exact (toHuman_allowed_chars c h).2.2

theorem splitOn_toHumanPair {spec : ArchiveSpec} :
    (toHumanPair spec).splitOn ':' =
      [ToHuman spec.SecondsPerPoint, ToHuman spec.RetentionSecs] := by
  have h : toHumanPair spec =
      [':'].intercalate [ToHuman spec.SecondsPerPoint, ToHuman spec.RetentionSecs] := by
    simp [toHumanPair, List.intercalate]
  rw [h]
  apply List.splitOn_intercalate
  · intro l hl
    rcases List.mem_pair.mp hl with h' | h' <;>
      (subst h'; intro hmem; exact absurd rfl (toHuman_allowed_chars ':' hmem).2.1)
  · simp

theorem parseRetentionSpec_toHumanPair (spec : ArchiveSpec) :
    parseRetentionSpec (toHumanPair spec) = some spec := by
  unfold parseRetentionSpec
  rw [splitOn_toHumanPair]
  have t1 : trimSpace (ToHuman spec.SecondsPerPoint) = ToHuman spec.SecondsPerPoint :=
    trimSpace_eq_self (fun c hc => (toHuman_allowed_chars c hc).2.2)
  have t2 : trimSpace (ToHuman spec.RetentionSecs) = ToHuman spec.RetentionSecs :=
    trimSpace_eq_self (fun c hc => (toHuman_allowed_chars c hc).2.2)
  simp only [t1, t2, fromHuman_toHuman]

theorem parseListLoop_replicate_nil (n : Nat) (ps : List GoStr) :
    parseListLoop (List.replicate n [] ++ ps) = parseListLoop ps := by
  induction n with
  | zero => rfl
  | succ n ih =>
    rw [List.replicate_succ, List.cons_append]
    exact ih

theorem parseListLoop_map_toHumanPair (specs : List ArchiveSpec) :
    parseListLoop (specs.map toHumanPair) = some specs := by
  induction specs with
  | nil => rfl
  | cons s rest ih =>
    rw [List.map_cons]
    unfold parseListLoop
    rw [if_neg (by rw [trimSpace_toHumanPair]; exact toHumanPair_ne_nil)]
    rw [trimSpace_toHumanPair, parseRetentionSpec_toHumanPair, ih]

/-! ### Schema records and the storage-schemas parser (lib/schema.go) -/

/-- Embedding of `Schema` (lib/types.go).  `Pattern` is the compiled regular
expression, embedded as its `MatchString` function; `none` embeds a nil
`*regexp.Regexp`. -/
structure Schema where
  Name : GoStr
  PatternRaw : GoStr
  Pattern : Option (GoStr → Bool)
  Retentions : List ArchiveSpec
  LineNo : Nat

/-- Parse-failure values of `ParseStorageSchemas`; the Go code formats an
error string naming the section and the offending text, embedded here as
structured data. -/
inductive ParseErr where
  | badPattern (name pat : GoStr)
  | badRetentions (name ret : GoStr)

/-- The mutable locals of `ParseStorageSchemas` (lib/schema.go lines 67-73):
the growing schema list, the pending section accumulators, the physical line
counter and the pending section's header line. -/
structure ParserSt where
  schemas : List Schema
  curName : GoStr
  curPattern : GoStr
  curRetentions : GoStr
  lineNo : Nat
  sectionLine : Nat

/-- The pattern-compilation step of `flushSection` (lib/schema.go lines
84-91): a nil compiled pattern when the pattern text is empty, otherwise a
compile attempt whose failure aborts with the section-naming error. -/
def compiledOf (compile : GoStr → Option (GoStr → Bool)) (st : ParserSt) :
    Except ParseErr (Option (GoStr → Bool)) :=
  if st.curPattern = [] then .ok none
  else
    match compile st.curPattern with
    | some re => .ok (some re)
    | none => .error (.badPattern st.curName st.curPattern)

/-- The retention-parsing step of `flushSection` (lib/schema.go lines 92-99):
a nil retention list when the retentions text is empty, otherwise a parse
attempt whose failure aborts with the section-naming error. -/
def retSpecsOf (st : ParserSt) : Except ParseErr (List ArchiveSpec) :=
  if st.curRetentions = [] then .ok []
  else
    match parseRetentionList st.curRetentions with
    | some rs => .ok rs
    | none => .error (.badRetentions st.curName st.curRetentions)

/-- Embedding of the `flushSection` closure (lib/schema.go lines 75-111),
parameterized by the abstract regex compiler (`regexp.Compile`). -/
def flushSection (compile : GoStr → Option (GoStr → Bool)) (st : ParserSt) :
    Except ParseErr ParserSt :=
  if st.curName = [] then .ok st
  else if st.curPattern = [] ∧ st.curRetentions = [] then .ok { st with curName := [] }
  else
    match compiledOf compile st with
    | .error e => .error e
    | .ok compiled =>
      match retSpecsOf st with
      | .error e => .error e
      | .ok retSpecs =>
        .ok { st with
          schemas := st.schemas ++
            [⟨st.curName, st.curPattern, compiled, retSpecs, st.sectionLine⟩],
          curName := [], curPattern := [], curRetentions := [] }

/-- Comment stripping and trimming applied to each scanned line
(lib/schema.go lines 115-120): trim, cut at the first `#`, trim again. -/
def stripLine (line : GoStr) : GoStr :=
  let t := trimSpace line
  if '#' ∈ t then trimSpace (t.takeWhile (fun c => !(c == '#'))) else t

/-- Section-header recognition (lib/schema.go line 125 and 130):
`strings.HasPrefix(trim, "[") && strings.HasSuffix(trim, "]")`, returning the
trimmed text between the brackets. -/
def headerName (t : GoStr) : Option GoStr :=
  if t.head? = some '[' ∧ t.getLast? = some ']' then
    some (trimSpace (t.drop 1).dropLast)
  else none

/-- The `key` of a `key = value` line (lib/schema.go line 136):
`strings.ToLower(strings.TrimSpace(trim[:eq]))`. -/
def keyOf (t : GoStr) : GoStr :=
  (trimSpace (t.takeWhile (fun c => !(c == '=')))).map Char.toLower

/-- The `value` of a `key = value` line (lib/schema.go line 137):
`strings.TrimSpace(trim[eq+1:])`. -/
def valOf (t : GoStr) : GoStr :=
  trimSpace ((t.dropWhile (fun c => !(c == '='))).drop 1)

/-- Embedding of one iteration of the scan loop of `ParseStorageSchemas`
(lib/schema.go lines 113-147): count the line, strip comments, skip blanks,
flush-and-open on a section header, record recognized `key = value` lines. -/
def processLine (compile : GoStr → Option (GoStr → Bool)) (st : ParserSt)
    (line : GoStr) : Except ParseErr ParserSt :=
  if stripLine line = [] then .ok { st with lineNo := st.lineNo + 1 }
  else
    match headerName (stripLine line) with
    | some nm =>
      match flushSection compile { st with lineNo := st.lineNo + 1 } with
      | .error e => .error e
      | .ok st2 => .ok { st2 with curName := nm, sectionLine := st2.lineNo }
    | none =>
      if '=' ∈ stripLine line then
        if keyOf (stripLine line) =
            ('p' :: 'a' :: 't' :: 't' :: 'e' :: 'r' :: 'n' :: []) then
          .ok { st with lineNo := st.lineNo + 1, curPattern := valOf (stripLine line) }
        else if keyOf (stripLine line) =
            ('r' :: 'e' :: 't' :: 'e' :: 'n' :: 't' :: 'i' :: 'o' :: 'n' :: 's' :: []) then
          .ok { st with lineNo := st.lineNo + 1,
                        curRetentions := valOf (stripLine line) }
        else .ok { st with lineNo := st.lineNo + 1 }
      else .ok { st with lineNo := st.lineNo + 1 }

/-- The scan loop of `ParseStorageSchemas`: process lines in order, stopping
at the first flush error (the Go code returns `nil, err` immediately). -/
def runLines (compile : GoStr → Option (GoStr → Bool)) :
    ParserSt → List GoStr → Except ParseErr ParserSt
  | st, [] => .ok st
  | st, l :: ls =>
    match processLine compile st l with
    | .error e => .error e
    | .ok st' => runLines compile st' ls

def initSt : ParserSt := ⟨[], [], [], [], 0, 0⟩

/-- Embedding of `ParseStorageSchemas` (lib/schema.go lines 54-156) over the
scanned lines of the policy file.  Each Go `return nil, err` site is embedded
as `([], some e)`; success returns the schema list and no error. -/
def ParseStorageSchemas (compile : GoStr → Option (GoStr → Bool))
    (lines : List GoStr) : List Schema × Option ParseErr :=
  match runLines compile initSt lines with
  | .error e => ([], some e)
  | .ok st =>
    match flushSection compile st with
    | .error e => ([], some e)
    | .ok st2 => (st2.schemas, none)

/-! ### Schema resolution (cmd/schema.go lines 447-459) and counting -/

/-- The per-schema match test of the resolution loops: a nil pattern never
matches; otherwise `Pattern.MatchString(metric)`. -/
def schemaMatches (metric : GoStr) (s : Schema) : Bool :=
  match s.Pattern with
  | none => false
  | some m => m metric

/-- Embedding of the first-matching-schema loop of the check-retention mode
(cmd/schema.go lines 447-459): scan top-to-bottom, skip nil patterns, stop at
the first match, `none` when nothing matches. -/
def resolve (metric : GoStr) : List Schema → Option Schema
  | [] => none
  | s :: rest =>
    match s.Pattern with
    | none => resolve metric rest
    | some m => if m metric then some s else resolve metric rest

/-- Embedding of `SchemaCount` (lib/schema.go lines 11-14). -/
structure SchemaCount where
  Definition : Schema
  Count : Int

/-- One-file step of `CountDefinitions` (lib/schema.go lines 26-41):
increment the first matching schema's counter, if any. -/
def bumpCounts (metric : GoStr) : List SchemaCount → List SchemaCount
  | [] => []
  | sc :: rest =>
    match sc.Definition.Pattern with
    | none => sc :: bumpCounts metric rest
    | some m =>
      if m metric then { sc with Count := sc.Count + 1 } :: rest
      else sc :: bumpCounts metric rest

/-- Embedding of `CountDefinitions` (lib/schema.go lines 16-43), with the
path-to-metric mapping abstracted to a function from file path to metric. -/
def CountDefinitions (schemas : List Schema) (metricOf : GoStr → GoStr)
    (files : List GoStr) : List SchemaCount :=
  files.foldl (fun counts f => bumpCounts (metricOf f) counts)
    (schemas.map fun s => ⟨s, 0⟩)

/-! ### Retention comparison (cmd/schema.go lines 365-375) -/

/-- The index loop of `compareSpecsEqual`; the mismatched-length case cannot
be reached through `compareSpecsEqual`, which checks lengths first. -/
def eqLoop : List ArchiveSpec → List ArchiveSpec → Bool
  | [], _ => true
  | _ :: _, [] => true
  | x :: xs, y :: ys =>
    if x.SecondsPerPoint ≠ y.SecondsPerPoint ∨ x.RetentionSecs ≠ y.RetentionSecs
    then false
    else eqLoop xs ys

/-- Embedding of `compareSpecsEqual` (cmd/schema.go lines 365-375). -/
def compareSpecsEqual (a b : List ArchiveSpec) : Bool :=
  if a.length ≠ b.length then false else eqLoop a b

/-! ### Metric-name mapping (lib/whisper.go lines 50-60) -/

/-- Drop a trailing `.wsp` (Go `strings.TrimSuffix(rel, ".wsp")`). -/
def trimWspExt (l : GoStr) : GoStr :=
  if ('.' :: 'w' :: 's' :: 'p' :: []) <:+ l then l.dropLast.dropLast.dropLast.dropLast
  else l

/-- Drop one leading path separator (Go `strings.TrimPrefix(rel, "/")`). -/
def trimLeadSep : GoStr → GoStr
  | '/' :: rest => rest
  | l => l

/-- Embedding of `MetricFromPath` (lib/whisper.go lines 50-60), with the
external `filepath.Rel` collaborator abstracted as `rel` (`none` embeds its
error return, on which the Go code falls back to the full path). -/
def MetricFromPath (rel : GoStr → GoStr → Option GoStr) (root full : GoStr) : GoStr :=
  let r := match rel root full with
    | some r => r
    | none => full
  let r := trimWspExt r
  let r := trimLeadSep r
  r.map (fun c => if c = '/' then '.' else c)

/-! ### Claim theorems: duration codec and retention-list formatting -/

/-- Claim C6: for every non-negative integer number of seconds that is an
exact multiple of one of 1, 60, 3600, 86400 or 31536000, decoding the encoded
token gives the seconds back; moreover `ToHuman 3600 = "1h"`,
`fromHuman "1h" = 3600`, and `ToHuman 0 = "0s"`. -/
theorem c6_duration_roundtrip :
    (∀ s : Int, 0 ≤ s →
      (s % 1 = 0 ∨ s % 60 = 0 ∨ s % 3600 = 0 ∨ s % 86400 = 0 ∨ s % 31536000 = 0) →
      fromHuman (ToHuman s) = some s) ∧
    ToHuman 3600 = ('1' :: 'h' :: []) ∧
    fromHuman ('1' :: 'h' :: []) = some 3600 ∧
    ToHuman 0 = ('0' :: 's' :: []) := by
  refine ⟨fun s _ _ => fromHuman_toHuman s, by decide, by decide, by decide⟩

/-- Witness for C6 at s = 7200 (a multiple of 3600). -/
theorem c6_duration_roundtrip_witness :
    fromHuman (ToHuman 7200) = some 7200 :=
  c6_duration_roundtrip.1 7200 (by decide)
    (Or.inr (Or.inr (Or.inl (by decide))))

/-- Claim C4: for every non-empty sequence of retention specs, parsing the
formatted string succeeds and returns the original sequence.  This holds even
through the `make([]string, len(specs))` slip in `FormatRetentionList`
(lib/format.go lines 34-40), because `parseRetentionList` skips the empty
tokens the slip introduces. -/
theorem c4_format_parse_roundtrip :
    ∀ specs : List ArchiveSpec, specs ≠ [] →
      parseRetentionList (FormatRetentionList specs) = some specs := by
  intro specs h
  have hparts : ∀ l ∈ List.replicate specs.length ([] : GoStr) ++
      specs.map toHumanPair, ',' ∉ l := by
    intro l hl
    rcases List.mem_append.mp hl with hl | hl
    · rw [List.eq_of_mem_replicate hl]; simp
    · rcases List.mem_map.mp hl with ⟨spec, _, rfl⟩
      exact toHumanPair_no_comma
  have hne : List.replicate specs.length ([] : GoStr) ++ specs.map toHumanPair ≠ [] := by
    simp [h]
  unfold parseRetentionList FormatRetentionList
  rw [List.splitOn_intercalate _ ',' hparts hne, parseListLoop_replicate_nil,
    parseListLoop_map_toHumanPair]
  simp [h]

/-- Witness for C4 on the two-tier list 10s:6h, 1m:7d. -/
theorem c4_format_parse_roundtrip_witness :
    parseRetentionList (FormatRetentionList [⟨10, 21600⟩, ⟨60, 604800⟩]) =
      some [⟨10, 21600⟩, ⟨60, 604800⟩] :=
  c4_format_parse_roundtrip [⟨10, 21600⟩, ⟨60, 604800⟩] (by decide)

/-- Claim C3 (evaluation at the failing input): `formatRetentionList`
(cmd/schema.go) and the first `FormatRetentionList` (lib/format.go lines
34-40) emit a spurious leading comma for a one-element list — `",10s:6h"`
instead of the documented `"10s:6h"` — because `make([]string, len(specs))`
pre-fills the slice with empty strings; the second lib variant (lines
113-119) produces the claimed output. -/
theorem c3_format_leading_comma_eval :
    formatRetentionList [⟨10, 21600⟩] =
      (',' :: '1' :: '0' :: 's' :: ':' :: '6' :: 'h' :: []) ∧
    FormatRetentionList [⟨10, 21600⟩] =
      (',' :: '1' :: '0' :: 's' :: ':' :: '6' :: 'h' :: []) ∧
    FormatRetentionList2 [⟨10, 21600⟩] =
      ('1' :: '0' :: 's' :: ':' :: '6' :: 'h' :: []) := by
  refine ⟨by decide, by decide, by decide⟩

/-! ### Claim C5: sign of parsed retention specs -/

theorem mem_of_mem_trimSpace {c : Char} {l : GoStr} (h : c ∈ trimSpace l) : c ∈ l := by
  unfold trimSpace at h
  rw [List.mem_reverse] at h
  have h1 := (List.dropWhile_sublist (l := (l.dropWhile isSpaceGo).reverse)
    (p := isSpaceGo)).subset h
  rw [List.mem_reverse] at h1
  exact (List.dropWhile_sublist (l := l) (p := isSpaceGo)).subset h1

theorem atoi_nonneg {s : GoStr} {v : Int} (h : atoi s = some v)
    (hm : '-' ∉ s) : 0 ≤ v := by
  cases s with
  | nil => exact absurd h (by simp [atoi])
  | cons c rest =>
    have hc : ¬ c = '-' := fun hcc => hm (hcc ▸ List.mem_cons_self c rest)
    simp only [atoi, if_neg hc] at h
    by_cases hp : c = '+'
    · rw [if_pos hp] at h
      cases hpd : parseDigits rest with
      | none => rw [hpd] at h; exact absurd h (by simp)
      | some n => rw [hpd] at h; cases h; exact Int.natCast_nonneg n
    · rw [if_neg hp] at h
      cases hpd : parseDigits (c :: rest) with
      | none => rw [hpd] at h; exact absurd h (by simp)
      | some n => rw [hpd] at h; cases h; exact Int.natCast_nonneg n

theorem fromHuman_nonneg {s : GoStr} {v : Int} (h : fromHuman s = some v)
    (hm : '-' ∉ s) : 0 ≤ v := by
  unfold fromHuman at h
  by_cases ht : trimSpace s = []
  · rw [if_pos ht] at h; exact absurd h (by simp)
  · rw [if_neg ht] at h
    cases hl : (trimSpace s).getLast? with
    | none => rw [hl] at h; exact absurd h (by simp)
    | some u =>
      rw [hl] at h
      have h1 : (match atoi (trimSpace s).dropLast with
          | none => none
          | some val =>
            if u = 's' ∨ u = 'S' then some val
            else if u = 'm' ∨ u = 'M' then some (val * 60)
            else if u = 'h' ∨ u = 'H' then some (val * 3600)
            else if u = 'd' ∨ u = 'D' then some (val * 86400)
            else if u = 'y' ∨ u = 'Y' then some (val * 31536000)
            else none) = some v := h
      cases ha : atoi (trimSpace s).dropLast with
      | none => rw [ha] at h1; exact absurd h1 (by simp)
      | some val =>
        rw [ha] at h1
        have hval : 0 ≤ val := by
          apply atoi_nonneg ha
          intro hmem
          exact hm (mem_of_mem_trimSpace ((List.dropLast_sublist _).subset hmem))
        have h2 : (if u = 's' ∨ u = 'S' then some val
            else if u = 'm' ∨ u = 'M' then some (val * 60)
            else if u = 'h' ∨ u = 'H' then some (val * 3600)
            else if u = 'd' ∨ u = 'D' then some (val * 86400)
            else if u = 'y' ∨ u = 'Y' then some (val * 31536000)
            else none) = some v := h1
        by_cases c1 : u = 's' ∨ u = 'S'
        · rw [if_pos c1] at h2; cases h2; exact hval
        · rw [if_neg c1] at h2
          by_cases c2 : u = 'm' ∨ u = 'M'
          · rw [if_pos c2] at h2; cases h2
            exact mul_nonneg hval (by norm_num)
          · rw [if_neg c2] at h2
            by_cases c3 : u = 'h' ∨ u = 'H'
            · rw [if_pos c3] at h2; cases h2
              exact mul_nonneg hval (by norm_num)
            · rw [if_neg c3] at h2
              by_cases c4 : u = 'd' ∨ u = 'D'
              · rw [if_pos c4] at h2; cases h2
                exact mul_nonneg hval (by norm_num)
              · rw [if_neg c4] at h2
                by_cases c5 : u = 'y' ∨ u = 'Y'
                · rw [if_pos c5] at h2; cases h2
                  exact mul_nonneg hval (by norm_num)
                · rw [if_neg c5] at h2
                  exact absurd h2 (by simp)

/-! ### The 64-bit-faithful duration parser, where overflow matters.

`atoi` and `fromHuman` above use exact integer arithmetic, which is faithful
on every path where no Go `int` overflow occurs (as in the format/parse
round-trips, whose values stay in range).  The sign of a parsed spec is the
one question here where 64-bit behaviour matters: Go `strconv.Atoi` rejects
out-of-range digit strings, and the unit multiplications in `fromHuman` wrap
two's-complement.  The following variants embed that behaviour explicitly. -/

/-- Two's-complement wrap of a Go 64-bit `int`. -/
def wrap64 (x : Int) : Int := (x + 2 ^ 63) % 2 ^ 64 - 2 ^ 63

/-- Embedding of `strconv.Atoi` including its `int64` range check: Go
returns an error for digit strings whose value falls outside
`[-2^63, 2^63 - 1]`. -/
def atoi64 (s : GoStr) : Option Int :=
  match atoi s with
  | none => none
  | some v => if v < -(2 ^ 63) ∨ 2 ^ 63 - 1 < v then none else some v

/-- 64-bit-faithful embedding of `fromHuman` (lib/format.go lines 78-106):
the numeric prefix is parsed with the `Atoi` range check and the unit
multiplications wrap like Go `int` multiplication. -/
def fromHuman64 (s : GoStr) : Option Int :=
  let t := trimSpace s
  if t = [] then none
  else
    match t.getLast? with
    | none => none
    | some u =>
      match atoi64 t.dropLast with
      | none => none
      | some val =>
        if u = 's' ∨ u = 'S' then some val
        else if u = 'm' ∨ u = 'M' then some (wrap64 (val * 60))
        else if u = 'h' ∨ u = 'H' then some (wrap64 (val * 3600))
        else if u = 'd' ∨ u = 'D' then some (wrap64 (val * 86400))
        else if u = 'y' ∨ u = 'Y' then some (wrap64 (val * 31536000))
        else none

/-- 64-bit-faithful embedding of `parseRetentionSpec`
(lib/schema.go lines 180-198), built on `fromHuman64`. -/
def parseRetentionSpec64 (pair : GoStr) : Option ArchiveSpec :=
  match pair.splitOn ':' with
  | [a, b] =>
    match fromHuman64 (trimSpace a) with
    | none => none
    | some resS =>
      match fromHuman64 (trimSpace b) with
      | none => none
      | some retS => some ⟨resS, retS⟩
  | _ => none

/-- Claim C5 (counterexample): non-negativity fails on the code in two ways —
a pair with negative numeric prefixes parses successfully to negative
fields, and a minus-free pair whose unit multiplication overflows `int64`
wraps to a negative resolution (`9223372036854775807 * 60` wraps to `-60`). -/
theorem c5_nonneg_counterexample :
    parseRetentionSpec64 (("-1s:-1s").toList) = some ⟨-1, -1⟩ ∧
    parseRetentionSpec64 (("9223372036854775807m:1s").toList) = some ⟨-60, 1⟩ ∧
    '-' ∉ ("9223372036854775807m:1s").toList ∧
    ((-60 : Int) < 0) ∧ ((-1 : Int) < 0) := by
  refine ⟨by decide, by decide, by decide, by decide, by decide⟩

/-- Under exact arithmetic, a successfully parsed pair containing no minus
sign has non-negative fields: the sign of `atoi` can only come from a
leading `'-'`, and the unit multipliers are positive. -/
theorem parse_nonneg_of_no_minus :
    ∀ (pair : GoStr) (spec : ArchiveSpec),
      parseRetentionSpec pair = some spec → '-' ∉ pair →
      0 ≤ spec.SecondsPerPoint ∧ 0 ≤ spec.RetentionSecs := by
  intro pair spec hparse hminus
  unfold parseRetentionSpec at hparse
  rcases h2 : pair.splitOn ':' with _ | ⟨a, rest⟩
  · rw [h2] at hparse; exact absurd hparse (by simp)
  rcases rest with _ | ⟨b, rest2⟩
  · rw [h2] at hparse; exact absurd hparse (by simp)
  rcases rest2 with _ | ⟨c, rest3⟩
  swap
  · rw [h2] at hparse; exact absurd hparse (by simp)
  rw [h2] at hparse
  have hpair : pair = a ++ ':' :: b := by
    have hi := List.intercalate_splitOn pair ':'
    rw [h2] at hi
    simpa [List.intercalate] using hi.symm
  have hma : '-' ∉ trimSpace a := by
    intro hmem
    apply hminus
    rw [hpair]
    exact List.mem_append.mpr (Or.inl (mem_of_mem_trimSpace hmem))
  have hmb : '-' ∉ trimSpace b := by
    intro hmem
    apply hminus
    rw [hpair]
    exact List.mem_append.mpr
      (Or.inr (List.mem_cons.mpr (Or.inr (mem_of_mem_trimSpace hmem))))
  have hp1 : (match fromHuman (trimSpace a) with
      | none => none
      | some resS =>
        match fromHuman (trimSpace b) with
        | none => none
        | some retS => some (ArchiveSpec.mk resS retS)) = some spec := hparse
  cases hra : fromHuman (trimSpace a) with
  | none => rw [hra] at hp1; exact absurd hp1 (by simp)
  | some resS =>
    rw [hra] at hp1
    have hp2 : (match fromHuman (trimSpace b) with
        | none => none
        | some retS => some (ArchiveSpec.mk resS retS)) = some spec := hp1
    cases hrb : fromHuman (trimSpace b) with
    | none => rw [hrb] at hp2; exact absurd hp2 (by simp)
    | some retS =>
      rw [hrb] at hp2
      have hp3 : some (ArchiveSpec.mk resS retS) = some spec := hp2
      cases hp3
      exact ⟨fromHuman_nonneg hra hma, fromHuman_nonneg hrb hmb⟩

/-- Claim C5 (amended): every retention spec produced by the parser from a
pair that contains no minus sign and whose duration arithmetic stays inside
the 64-bit `int` range — formalized as: the 64-bit parse agrees with the
exact-arithmetic parse — has a non-negative resolution and a non-negative
total retention.  Without those two exclusions the parser yields negative
fields: from negative prefixes, or from `int64` wrap-around on minus-free
input (see the counterexample). -/
theorem c5_nonneg_of_no_minus_no_overflow :
    ∀ (pair : GoStr) (spec : ArchiveSpec),
      parseRetentionSpec64 pair = some spec → '-' ∉ pair →
      parseRetentionSpec pair = some spec →
      0 ≤ spec.SecondsPerPoint ∧ 0 ≤ spec.RetentionSecs := by
  intro pair spec _ hminus hexact
  exact parse_nonneg_of_no_minus pair spec hexact hminus

/-- Witness for the amended C5 at the pair 10s:6h, which parses to the same
spec under 64-bit and exact arithmetic. -/
theorem c5_nonneg_of_no_minus_no_overflow_witness :
    0 ≤ (ArchiveSpec.mk 10 21600).SecondsPerPoint ∧
    0 ≤ (ArchiveSpec.mk 10 21600).RetentionSecs :=
  c5_nonneg_of_no_minus_no_overflow ('1' :: '0' :: 's' :: ':' :: '6' :: 'h' :: [])
    ⟨10, 21600⟩ (by decide) (by decide) (by decide)

/-! ### Claim C8: retention-sequence comparison -/

theorem archiveSpec_eq_iff {x y : ArchiveSpec} :
    x = y ↔ x.SecondsPerPoint = y.SecondsPerPoint ∧ x.RetentionSecs = y.RetentionSecs := by
  cases x; cases y
  simp [ArchiveSpec.mk.injEq]

theorem eqLoop_iff : ∀ a b : List ArchiveSpec, a.length = b.length →
    (eqLoop a b = true ↔ a = b) := by
  intro a
  induction a with
  | nil =>
    intro b hlen
    cases b with
    | nil => simp [eqLoop]
    | cons y ys => simp at hlen
  | cons x xs ih =>
    intro b hlen
    cases b with
    | nil => simp at hlen
    | cons y ys =>
      show (if x.SecondsPerPoint ≠ y.SecondsPerPoint ∨ x.RetentionSecs ≠ y.RetentionSecs
            then false else eqLoop xs ys) = true ↔ x :: xs = y :: ys
      by_cases hxy : x.SecondsPerPoint ≠ y.SecondsPerPoint ∨ x.RetentionSecs ≠ y.RetentionSecs
      · rw [if_pos hxy]
        simp only [Bool.false_eq_true, false_iff]
        intro hc
        rw [List.cons_eq_cons] at hc
        rcases hxy with hxy | hxy <;> exact hxy (by rw [hc.1])
      · rw [if_neg hxy]
        push_neg at hxy
        have hx : x = y := archiveSpec_eq_iff.mpr hxy
        rw [ih ys (by simpa using hlen), List.cons_eq_cons]
        simp [hx]

/-- Claim C8: the retention comparator is strict positional equality — false
whenever the lengths differ, and otherwise true exactly when at every index
both the resolution and the total-retention fields agree; `equal([], [])` is
true, a strict extension mismatches by length, and a reordering of distinct
tiers mismatches. -/
theorem c8_compare_specs_strict_equality :
    ∀ a b : List ArchiveSpec,
      (a.length ≠ b.length → compareSpecsEqual a b = false) ∧
      (a.length = b.length →
        (compareSpecsEqual a b = true ↔
          ∀ i (hi : i < a.length) (hbi : i < b.length),
            (a.get ⟨i, hi⟩).SecondsPerPoint = (b.get ⟨i, hbi⟩).SecondsPerPoint ∧
            (a.get ⟨i, hi⟩).RetentionSecs = (b.get ⟨i, hbi⟩).RetentionSecs)) ∧
      compareSpecsEqual [] [] = true ∧
      compareSpecsEqual [⟨10, 600⟩] [⟨10, 600⟩, ⟨60, 3600⟩] = false ∧
      compareSpecsEqual [⟨10, 600⟩, ⟨60, 3600⟩] [⟨60, 3600⟩, ⟨10, 600⟩] = false := by
  intro a b
  refine ⟨?_, ?_, by decide, by decide, by decide⟩
  · intro hlen
    unfold compareSpecsEqual
    rw [if_pos hlen]
  · intro hlen
    unfold compareSpecsEqual
    rw [if_neg (by omega : ¬ a.length ≠ b.length), eqLoop_iff a b hlen]
    constructor
    · rintro rfl i hi hbi
      exact ⟨rfl, rfl⟩
    · intro hfields
      apply List.ext_get hlen
      intro n h1 h2
      exact archiveSpec_eq_iff.mpr (hfields n h1 h2)

/-- Witness for C8: equal one-element lists compare true; a length mismatch
compares false. -/
theorem c8_compare_specs_strict_equality_witness :
    compareSpecsEqual [⟨10, 600⟩] [⟨10, 600⟩] = true ∧
    compareSpecsEqual [⟨10, 600⟩] [] = false :=
  ⟨((c8_compare_specs_strict_equality [⟨10, 600⟩] [⟨10, 600⟩]).2.1 rfl).mpr
      (by decide),
    (c8_compare_specs_strict_equality [⟨10, 600⟩] []).1 (by decide)⟩

/-! ### Claim C1: first-match-wins schema resolution -/

theorem resolve_eq_find? (metric : GoStr) :
    ∀ schemas : List Schema,
      resolve metric schemas = List.find? (schemaMatches metric) schemas := by
  intro schemas
  induction schemas with
  | nil => rfl
  | cons s rest ih =>
    show (match s.Pattern with
          | none => resolve metric rest
          | some m => if m metric then some s else resolve metric rest) =
        List.find? (schemaMatches metric) (s :: rest)
    rw [List.find?_cons]
    cases hp : s.Pattern with
    | none =>
      have hsm : schemaMatches metric s = false := by
        unfold schemaMatches; rw [hp]
      rw [hsm, ih]
    | some m =>
      have hsm : schemaMatches metric s = m metric := by
        unfold schemaMatches; rw [hp]
      rw [hsm]
      by_cases hm : m metric = true
      · simp [hm]
      · have hm' : m metric = false := by
          cases hmm : m metric
          · rfl
          · exact absurd hmm hm
        simp [hm', ih]

/-- Claim C1: for every metric name and schema list, resolution returns the
first schema in declaration order whose compiled pattern is present and whose
`MatchString` accepts the metric name (the unanchored-search semantics are
the regex engine's); every schema with an absent pattern is skipped (it can
never be the result), and when no schema matches the result is `none`. -/
theorem c1_resolve_first_match :
    ∀ (metric : GoStr) (schemas : List Schema),
      (resolve metric schemas = none ↔
        ∀ s ∈ schemas, schemaMatches metric s = false) ∧
      (∀ s : Schema, resolve metric schemas = some s →
        schemaMatches metric s = true ∧
        ∃ pre post, schemas = pre ++ s :: post ∧
          ∀ t ∈ pre, schemaMatches metric t = false) ∧
      (∀ s ∈ schemas, s.Pattern = none → resolve metric schemas ≠ some s) := by
  intro metric schemas
  refine ⟨?_, ?_, ?_⟩
  · rw [resolve_eq_find?, List.find?_eq_none]
    constructor
    · intro h s hs
      have := h s hs
      simpa using this
    · intro h s hs
      simp [h s hs]
  · intro s hres
    rw [resolve_eq_find?] at hres
    rw [List.find?_eq_some] at hres
    obtain ⟨hmatch, pre, post, hdecomp, hpre⟩ := hres
    refine ⟨hmatch, pre, post, hdecomp, ?_⟩
    intro t ht
    have := hpre t ht
    simpa using this
  · intro s _ hp hres
    rw [resolve_eq_find?] at hres
    have := List.find?_some hres
    unfold schemaMatches at this
    rw [hp] at this
    exact Bool.false_ne_true this

/-- A pattern whose `MatchString` accepts everything, for concrete examples. -/
def trueMatch : GoStr → Bool := fun _ => true

def sNoPattern : Schema := ⟨('a' :: []), [], none, [], 1⟩

def sSecond : Schema := ⟨('b' :: []), ('x' :: []), some trueMatch, [], 2⟩

def sThird : Schema := ⟨('c' :: []), ('x' :: []), some trueMatch, [], 3⟩

/-- Witness for C1: with an absent-pattern schema first and two overlapping
always-matching schemas after it, resolution picks the second list element,
and everything before it fails the match test. -/
theorem c1_resolve_first_match_witness :
    schemaMatches [] sSecond = true ∧
    ∃ pre post, [sNoPattern, sSecond, sThird] = pre ++ sSecond :: post ∧
      ∀ t ∈ pre, schemaMatches [] t = false :=
  (c1_resolve_first_match [] [sNoPattern, sSecond, sThird]).2.1 sSecond rfl

/-! ### Claim C9: path-to-metric mapping -/

/-- Bool prefix test used by the `filepath.Rel` model. -/
def startsWith : GoStr → GoStr → Bool
  | [], _ => true
  | _ :: _, [] => false
  | c :: cs, d :: ds => c == d && startsWith cs ds

/-- Model of the external `filepath.Rel` collaborator on the only case the
example needs: when `root ++ "/"` starts `full`, the relative path is the
remainder of `full`; otherwise the computation is treated as failed. -/
def relUnder (root full : GoStr) : Option GoStr :=
  if startsWith (root ++ ['/']) full then some (full.drop (root.length + 1))
  else none

/-- A `filepath.Rel` collaborator that always fails, exercising the fallback. -/
def relFail : GoStr → GoStr → Option GoStr := fun _ _ => none

/-- Claim C9: the metric-name mapping pipelines the relative path (falling
back to the full path verbatim when the relative-path computation fails)
through extension stripping, one-leading-separator stripping, and
separator-to-dot replacement; no separator survives in the output; and
`MetricFromPath "/data" "/data/servers/web01/cpu.wsp" = "servers.web01.cpu"`. -/
theorem c9_metric_from_path :
    (∀ (rel : GoStr → GoStr → Option GoStr) (root full : GoStr),
      rel root full = none →
      MetricFromPath rel root full =
        (trimLeadSep (trimWspExt full)).map (fun c => if c = '/' then '.' else c)) ∧
    (∀ (rel : GoStr → GoStr → Option GoStr) (root full r : GoStr),
      rel root full = some r →
      MetricFromPath rel root full =
        (trimLeadSep (trimWspExt r)).map (fun c => if c = '/' then '.' else c)) ∧
    (∀ (rel : GoStr → GoStr → Option GoStr) (root full : GoStr),
      '/' ∉ MetricFromPath rel root full) ∧
    MetricFromPath relUnder ("/data".toList) ("/data/servers/web01/cpu.wsp".toList) =
      ("servers.web01.cpu".toList) := by
  refine ⟨?_, ?_, ?_, by decide⟩
  · intro rel root full h
    unfold MetricFromPath
    rw [h]
  · intro rel root full r h
    unfold MetricFromPath
    rw [h]
  · intro rel root full hmem
    unfold MetricFromPath at hmem
    rcases List.mem_map.mp hmem with ⟨x, _, hx⟩
    by_cases hxs : x = '/'
    · rw [if_pos hxs] at hx
      exact absurd hx (by decide)
    · rw [if_neg hxs] at hx
      exact hxs hx

/-- Witness for C9: the fallback branch on a failing relative-path
computation maps `a/b.wsp` to `a.b`. -/
theorem c9_metric_from_path_witness :
    MetricFromPath relFail [] ("a/b.wsp".toList) = ("a.b".toList) := by
  rw [c9_metric_from_path.1 relFail [] ("a/b.wsp".toList) rfl]
  decide

/-! ### Claim C2: all-or-nothing policy parsing -/

/-- Claim C2: policy-file parsing is all-or-nothing.  Whenever the parse
reports an error, the returned schema list is empty (each Go error site
returns `nil, err`), and flushing a pending section whose pattern fails to
compile, or whose retentions text fails to parse, aborts with the
corresponding section-naming error. -/
theorem c2_parse_all_or_nothing :
    ∀ compile : GoStr → Option (GoStr → Bool),
      (∀ lines : List GoStr,
        (ParseStorageSchemas compile lines).2.isSome = true →
        (ParseStorageSchemas compile lines).1 = []) ∧
      (∀ st : ParserSt, st.curName ≠ [] → st.curPattern ≠ [] →
        compile st.curPattern = none →
        flushSection compile st = .error (.badPattern st.curName st.curPattern)) ∧
      (∀ st : ParserSt, st.curName ≠ [] → st.curRetentions ≠ [] →
        parseRetentionList st.curRetentions = none →
        (st.curPattern = [] ∨ ∃ m, compile st.curPattern = some m) →
        flushSection compile st = .error (.badRetentions st.curName st.curRetentions)) := by
  intro compile
  refine ⟨?_, ?_, ?_⟩
  · intro lines
    unfold ParseStorageSchemas
    rcases hr : runLines compile initSt lines with e | st
    · intro _; rfl
    · rcases hf : flushSection compile st with e | st2
      · intro _
        show (match flushSection compile st with
              | Except.error e => (([] : List Schema), some e)
              | Except.ok st2 => (st2.schemas, none)).1 = []
        rw [hf]
      · intro hsome
        have hsome2 : (match flushSection compile st with
              | Except.error e => (([] : List Schema), some e)
              | Except.ok st2 => (st2.schemas, none)).2.isSome = true := hsome
        rw [hf] at hsome2
        exact absurd hsome2 (by simp)
  · intro st hname hpat hcomp
    unfold flushSection compiledOf
    rw [if_neg hname, if_neg (fun hand => hpat hand.1), if_neg hpat, hcomp]
  · intro st hname hret hplist hcomp
    unfold flushSection compiledOf retSpecsOf
    rw [if_neg hname, if_neg (fun hand => hret hand.2)]
    by_cases hp : st.curPattern = []
    · rw [if_pos hp, if_neg hret, hplist]
    · rcases hcomp with h | ⟨m, hm⟩
      · exact absurd h hp
      · rw [if_neg hp, hm, if_neg hret, hplist]

/-- A compiler that accepts every pattern, for concrete parser runs. -/
def compileAll : GoStr → Option (GoStr → Bool) := fun _ => some trueMatch

/-- A compiler that rejects every pattern, exercising compile failures. -/
def compileNone : GoStr → Option (GoStr → Bool) := fun _ => none

/-- Witness for C2: a policy whose single section has an uncompilable pattern
parses to the empty list, and the bad-pattern flush errors. -/
theorem c2_parse_all_or_nothing_witness :
    (ParseStorageSchemas compileNone
      (("[a]").toList :: ("pattern = x").toList :: [])).1 = [] ∧
    flushSection compileNone ⟨[], ('a' :: []), ('x' :: []), [], 2, 1⟩ =
      .error (.badPattern ('a' :: []) ('x' :: [])) :=
  ⟨(c2_parse_all_or_nothing compileNone).1 _ rfl,
    (c2_parse_all_or_nothing compileNone).2.1 _ (by decide) (by decide) rfl⟩

/-! ### Claim C10: key lines before the first section header -/

/-- Claim C10: recognized `pattern`/`retentions` lines appearing before the
first section header are not discarded.  Flushing with no pending section
name is a no-op leaving the whole state — in particular the pattern and
retentions accumulators — unchanged, so such values are attributed to the
first subsequently declared section: parsing `pattern = abc` before `[first]`
yields a schema named `first` whose raw pattern is `abc`. -/
theorem c10_keys_before_first_header :
    (∀ (compile : GoStr → Option (GoStr → Bool)) (st : ParserSt),
      st.curName = [] → flushSection compile st = .ok st) ∧
    ParseStorageSchemas compileAll
      (("pattern = abc").toList :: ("[first]").toList ::
        ("retentions = 10s:6h").toList :: []) =
      ([⟨("first").toList, ("abc").toList, some trueMatch, [⟨10, 21600⟩], 2⟩],
        none) := by
  constructor
  · intro compile st h
    unfold flushSection
    rw [if_pos h]
  · rfl

/-- Witness for C10: the no-op flush on a state with an empty pending name
and a non-empty pattern accumulator. -/
theorem c10_keys_before_first_header_witness :
    flushSection compileAll ⟨[], [], ('x' :: []), [], 5, 0⟩ =
      .ok ⟨[], [], ('x' :: []), [], 5, 0⟩ :=
  c10_keys_before_first_header.1 compileAll _ rfl

/-! ### Claim C7: declaration order equals file order of section headers -/

/-- Line `l` (1-based) of the policy file is a section header declaring
`name`, as the parser sees it (after comment stripping and trimming). -/
def isHeaderAt (lines : List GoStr) (l : Nat) (name : GoStr) : Prop :=
  1 ≤ l ∧ ∃ raw, lines[l - 1]? = some raw ∧ headerName (stripLine raw) = some name

/-- Invariant of the parser state maintained over the scan loop.  `lineNo`
counts consumed lines; `sectionLine` never exceeds it; recorded schemas carry
strictly increasing header line numbers, all at or before the pending
section's header, which itself is a real header line of the file. -/
structure ParseInv (lines : List GoStr) (st : ParserSt) : Prop where
  secLe : st.sectionLine ≤ st.lineNo
  chain : List.Chain' (fun a b => a < b) (st.schemas.map Schema.LineNo)
  bounded : ∀ s ∈ st.schemas, s.LineNo ≤ st.sectionLine
  headers : ∀ s ∈ st.schemas, isHeaderAt lines s.LineNo s.Name
  cur : st.curName ≠ [] →
    isHeaderAt lines st.sectionLine st.curName ∧
    ∀ s ∈ st.schemas, s.LineNo < st.sectionLine

theorem flush_inv {compile : GoStr → Option (GoStr → Bool)} {lines : List GoStr}
    {st st' : ParserSt} (hinv : ParseInv lines st)
    (h : flushSection compile st = .ok st') :
    ParseInv lines st' ∧ st'.lineNo = st.lineNo ∧ st'.sectionLine = st.sectionLine := by
  unfold flushSection at h
  by_cases h1 : st.curName = []
  · rw [if_pos h1] at h
    cases h
    exact ⟨hinv, rfl, rfl⟩
  · rw [if_neg h1] at h
    obtain ⟨hhead, hstrict⟩ := hinv.cur h1
    by_cases h2 : st.curPattern = [] ∧ st.curRetentions = []
    · rw [if_pos h2] at h
      cases h
      exact ⟨⟨hinv.secLe, hinv.chain, hinv.bounded, hinv.headers,
        fun hc => absurd rfl hc⟩, rfl, rfl⟩
    · rw [if_neg h2] at h
      rcases hcm : compiledOf compile st with e | compiled
      · rw [hcm] at h; exact absurd h (by simp)
      · rw [hcm] at h
        rcases hrt : retSpecsOf st with e | retSpecs
        · rw [hrt] at h; exact absurd h (by simp)
        · rw [hrt] at h
          cases h
          refine ⟨⟨hinv.secLe, ?_, ?_, ?_, fun hc => absurd rfl hc⟩, rfl, rfl⟩
          · rw [List.map_append, List.chain'_append]
            refine ⟨hinv.chain, List.chain'_singleton _, ?_⟩
            intro x hx y hy
            have hy' : st.sectionLine = y := by simpa using hy
            subst hy'
            have hx' : x ∈ st.schemas.map Schema.LineNo :=
              List.mem_of_mem_getLast? hx
            rcases List.mem_map.mp hx' with ⟨s, hs, rfl⟩
            exact hstrict s hs
          · intro s hs
            rcases List.mem_append.mp hs with hs | hs
            · exact hinv.bounded s hs
            · rw [List.mem_singleton] at hs; subst hs; exact le_refl _
          · intro s hs
            rcases List.mem_append.mp hs with hs | hs
            · exact hinv.headers s hs
            · rw [List.mem_singleton] at hs; subst hs; exact hhead

theorem processLine_inv {compile : GoStr → Option (GoStr → Bool)}
    {lines : List GoStr} {st st' : ParserSt} {r : GoStr}
    (hinv : ParseInv lines st) (hline : lines[st.lineNo]? = some r)
    (h : processLine compile st r = .ok st') :
    ParseInv lines st' ∧ st'.lineNo = st.lineNo + 1 := by
  have hinv1 : ParseInv lines { st with lineNo := st.lineNo + 1 } :=
    ⟨Nat.le_succ_of_le hinv.secLe, hinv.chain, hinv.bounded, hinv.headers, hinv.cur⟩
  unfold processLine at h
  by_cases hb : stripLine r = []
  · rw [if_pos hb] at h
    cases h
    exact ⟨hinv1, rfl⟩
  · rw [if_neg hb] at h
    rcases hh : headerName (stripLine r) with _ | nm
    · rw [hh] at h
      by_cases he : '=' ∈ stripLine r
      · rw [if_pos he] at h
        by_cases hk1 : keyOf (stripLine r) =
            ('p' :: 'a' :: 't' :: 't' :: 'e' :: 'r' :: 'n' :: [])
        · rw [if_pos hk1] at h
          cases h
          exact ⟨⟨Nat.le_succ_of_le hinv.secLe, hinv.chain, hinv.bounded,
            hinv.headers, hinv.cur⟩, rfl⟩
        · rw [if_neg hk1] at h
          by_cases hk2 : keyOf (stripLine r) =
              ('r' :: 'e' :: 't' :: 'e' :: 'n' :: 't' :: 'i' :: 'o' :: 'n' :: 's' :: [])
          · rw [if_pos hk2] at h
            cases h
            exact ⟨⟨Nat.le_succ_of_le hinv.secLe, hinv.chain, hinv.bounded,
              hinv.headers, hinv.cur⟩, rfl⟩
          · rw [if_neg hk2] at h
            cases h
            exact ⟨hinv1, rfl⟩
      · rw [if_neg he] at h
        cases h
        exact ⟨hinv1, rfl⟩
    · rw [hh] at h
      rcases hf : flushSection compile { st with lineNo := st.lineNo + 1 } with e | st2
      · rw [hf] at h; exact absurd h (by simp)
      · rw [hf] at h
        cases h
        obtain ⟨hinv2, hln, hsl⟩ := flush_inv hinv1 hf
        have hln' : st2.lineNo = st.lineNo + 1 := hln
        have hsl' : st2.sectionLine = st.sectionLine := hsl
        have hle : ∀ s ∈ st2.schemas, s.LineNo ≤ st.lineNo := by
          intro s hs
          have hb2 := hinv2.bounded s hs
          rw [hsl'] at hb2
          exact le_trans hb2 hinv.secLe
        refine ⟨⟨le_refl _, hinv2.chain, ?_, hinv2.headers, ?_⟩, ?_⟩
        · intro s hs
          have hs' := hle s hs
          show s.LineNo ≤ st2.lineNo
          rw [hln']
          omega
        · intro _
          constructor
          · show isHeaderAt lines st2.lineNo nm
            rw [hln']
            exact ⟨by omega, r, by simpa using hline, hh⟩
          · intro s hs
            have hs' := hle s hs
            show s.LineNo < st2.lineNo
            rw [hln']
            omega
        · exact hln'

theorem runLines_inv {compile : GoStr → Option (GoStr → Bool)}
    {lines : List GoStr} :
    ∀ (rest : List GoStr) (st st' : ParserSt), ParseInv lines st →
      lines.drop st.lineNo = rest →
      runLines compile st rest = .ok st' → ParseInv lines st' := by
  intro rest
  induction rest with
  | nil =>
    intro st st' hinv _ h
    cases h
    exact hinv
  | cons r rest ih =>
    intro st st' hinv hdrop h
    have hline : lines[st.lineNo]? = some r := by
      rw [← List.head?_drop, hdrop]
      rfl
    have hdrop' : lines.drop (st.lineNo + 1) = rest := by
      have hdd := List.drop_drop 1 st.lineNo lines
      rw [← hdd, hdrop]
      rfl
    simp only [runLines] at h
    rcases hp : processLine compile st r with e | st1
    · rw [hp] at h; exact absurd h (by simp)
    · rw [hp] at h
      obtain ⟨hinv1, hln⟩ := processLine_inv hinv hline hp
      exact ih st1 st' hinv1 (by rw [hln, hdrop']) h

/-- Claim C7: in every successfully parsed schema list, each schema's
`LineNo` is the physical (1-based) line number of a policy line that is a
section header declaring that schema's name, and the `LineNo` values are
strictly increasing along the list, so the list order is the file order of
section headers. -/
theorem c7_lineno_is_file_order :
    ∀ (compile : GoStr → Option (GoStr → Bool)) (lines : List GoStr)
      (schemas : List Schema),
      ParseStorageSchemas compile lines = (schemas, none) →
      List.Chain' (fun a b => a < b) (schemas.map Schema.LineNo) ∧
      ∀ s ∈ schemas, isHeaderAt lines s.LineNo s.Name := by
  intro compile lines schemas h
  unfold ParseStorageSchemas at h
  rcases hr : runLines compile initSt lines with e | st
  · rw [hr] at h; exact absurd h (by simp)
  · have h2 : (match flushSection compile st with
        | Except.error e => (([] : List Schema), some e)
        | Except.ok st2 => (st2.schemas, none)) = (schemas, none) := by
      rw [← h, hr]
    rcases hf : flushSection compile st with e | st2
    · rw [hf] at h2; exact absurd h2 (by simp)
    · rw [hf] at h2
      have hinv0 : ParseInv lines initSt :=
        ⟨le_refl 0, List.chain'_nil, by intro s hs; exact absurd hs (by simp [initSt]),
          by intro s hs; exact absurd hs (by simp [initSt]),
          fun hc => absurd rfl hc⟩
      have hinv := runLines_inv lines initSt st hinv0 (List.drop_zero lines) hr
      obtain ⟨hinv2, _, _⟩ := flush_inv hinv hf
      have hsch : schemas = st2.schemas := by
        have hfst := congrArg Prod.fst h2
        exact hfst.symm
      subst hsch
      exact ⟨hinv2.chain, hinv2.headers⟩

def linesTwoSections : List GoStr :=
  ("# storage schemas").toList :: ("[first]").toList :: ("pattern = a").toList ::
    ("[second]").toList :: ("pattern = b").toList :: []

/-- Witness for C7 on a two-section policy file with a leading comment. -/
theorem c7_lineno_is_file_order_witness :
    List.Chain' (fun a b => a < b)
      (((ParseStorageSchemas compileAll linesTwoSections).1).map Schema.LineNo) ∧
    ∀ s ∈ (ParseStorageSchemas compileAll linesTwoSections).1,
      isHeaderAt linesTwoSections s.LineNo s.Name :=
  c7_lineno_is_file_order compileAll linesTwoSections
    (ParseStorageSchemas compileAll linesTwoSections).1 rfl
